import Mathlib

/-!
Verification of the pool synchronization, expiry and integrity subsystem of
the ubuntu-merges-operator repository (momlib.py, expire-pool.py,
update-pool.py, check-pool.py, app/util/tree.py).

The Python code is shallowly embedded: each relevant Python function becomes a
Lean function over explicit data (parsed source stanzas, file-system state as
finite maps from path names to sizes or contents, mirror responses as
oracles).  Version strings are compared through `deb.version.Version`, which
lives outside the mirrored sources; per the specification its comparison "must
be a total order", so the embedding is parametric in a linearly ordered type
`V` of versions, except where the textual structure of versions matters
(`get_base`), where version strings are lists of characters.
-/

namespace Mom

/-- One entry of a checksum field of a source stanza: per the index file
format, a `<hash> <size> <name>` triple.  `momlib.files` keeps `(size, name)`
(`f.split(None, 2)[1:]`); `check-pool.py` re-reads the hash as well.  Sizes
are modelled as naturals (the code applies `int(size)` before comparing). -/
structure FileEntry where
  hash : String
  size : Nat
  name : String
  deriving DecidableEq, Repr

/-- Modelled from the spec: a parsed source stanza (`SourceRecord`, §3).  The
parser (`deb.controlfile.ControlFile`) is not among the mirrored sources; per
§3/§6 a stanza carries `Package`, `Version`, `Directory` and the four optional
checksum fields, each a list of `<hash> <size> <name>` triples.  The version
is an element of an arbitrary linearly ordered type `V` (spec §4.1: `compare`
"must be a total order").  The `Files` field is called `filesField` because
`files` names the selection function below, as in momlib.py. -/
structure SourceRecord (V : Type) where
  package : String
  version : V
  directory : String
  checksumsSha512 : Option (List FileEntry)
  checksumsSha256 : Option (List FileEntry)
  checksumsSha1 : Option (List FileEntry)
  filesField : Option (List FileEntry)
  deriving DecidableEq

/-- momlib.py `files(source)` (lines 594-607): walk the field names
`Checksums-Sha512`, `Checksums-Sha256`, `Checksums-Sha1`, `Files` in order,
take the first present, and return the `(size, name)` projection of its
entries; raise `KeyError` when none of the four fields is present. -/
def files {V : Type} (source : SourceRecord V) : Except String (List (Nat × String)) :=
  match source.checksumsSha512 with
  | some l => .ok (l.map fun e => (e.size, e.name))
  | none =>
    match source.checksumsSha256 with
    | some l => .ok (l.map fun e => (e.size, e.name))
    | none =>
      match source.checksumsSha1 with
      | some l => .ok (l.map fun e => (e.size, e.name))
      | none =>
        match source.filesField with
        | some l => .ok (l.map fun e => (e.size, e.name))
        | none => .error ("Package '" ++ source.package ++ "' has no file list")

/-- The file names referenced by a list of kept sources, as collected by the
first loop of `expire_sources` (expire-pool.py lines 169-172).  A source on
which `files` raises contributes nothing here; in that case the run below
aborts before removing anything, so the discrepancy is unobservable. -/
def keep_files {V : Type} (keep_sources : List (SourceRecord V)) : List String :=
  keep_sources.flatMap fun source =>
    match files source with
    | .ok l => l.map (·.2)
    | .error _ => []

/-- The removal loop of `expire_sources` (expire-pool.py lines 176-186): for
each source to expire, delete each of its files unless the name is in
`keep_files`.  The per-package pool directory is modelled as the list of file
names present; `tree.remove` drops a name.  Returns the directory contents
after the loop together with `false` when a `KeyError` from `files` aborted
the loop (leaving the remaining state as is). -/
def expire_remove_loop {V : Type} (keepFiles : List String) :
    List (SourceRecord V) → List String → List String × Bool
  | [], present => (present, true)
  | source :: rest, present =>
    match files source with
    | .error _ => (present, false)
    | .ok fl =>
      expire_remove_loop keepFiles rest
        (fl.foldl
          (fun st e => if e.2 ∈ keepFiles then st else st.filter (· ≠ e.2))
          present)

/-- expire-pool.py `expire_sources(distro, package, keep_sources,
remove_sources)` (lines 165-189), acting on the pool directory contents
`present`: compute `keep_files` from `keep_sources`, then run the removal
loop over `remove_sources`.  A `KeyError` while computing `keep_files`
aborts before any removal. -/
def expire_sources {V : Type} (keep_sources remove_sources : List (SourceRecord V))
    (present : List String) : List String × Bool :=
  match keep_sources.mapM files with
  | .error _ => (present, false)
  | .ok _ => expire_remove_loop (keep_files keep_sources) remove_sources present

/-- momlib.py `version_sort` (lines 589-591): stable sort of a source list by
version (Python's `list.sort` is stable; `List.mergeSort` is the stable sort). -/
def version_sort {V : Type} [LinearOrder V] (sources : List (SourceRecord V)) :
    List (SourceRecord V) :=
  sources.mergeSort fun a b => decide (a.version ≤ b.version)

/-- The pure core of expire-pool.py `expire_pool_sources` (lines 124-162):
partition the pool sources of a package into the kept list and the removal
list handed to `expire_sources`.  `bases` collects sources with version below
`base` in order, `keep` the others; if no source's version equals `base` and
`bases` is non-empty, the last element of the sorted `bases` (the greatest) is
popped into `keep`. -/
def expire_pool_partition {V : Type} [LinearOrder V]
    (sources : List (SourceRecord V)) (base : V) :
    List (SourceRecord V) × List (SourceRecord V) :=
  let bases := sources.filter fun s => decide (base > s.version)
  let keep := sources.filter fun s => !decide (base > s.version)
  let baseFound := sources.any fun s => decide (base = s.version)
  if baseFound || bases.isEmpty then
    (keep, bases)
  else
    (keep ++ (version_sort bases).getLast?.toList, (version_sort bases).dropLast)

/-- expire-pool.py `expire_pool_sources(distro, package, base)` acting on the
parsed pool sources and the pool directory contents: partition, then expire. -/
def expire_pool_sources {V : Type} [LinearOrder V]
    (sources : List (SourceRecord V)) (base : V) (present : List String) :
    List String × Bool :=
  let p := expire_pool_partition sources base
  expire_sources p.1 p.2 present

/-- momlib.py `get_source(distro, dist, component, package)` (lines 438-449)
acting on the parsed index: collect the stanzas whose `Package` field equals
`package`; if any, sort them by version and pop the last, else raise
`IndexError`. -/
def get_source {V : Type} [LinearOrder V]
    (sources : List (SourceRecord V)) (package : String) :
    Except String (SourceRecord V) :=
  match (version_sort (sources.filter fun s => s.package == package)).getLast? with
  | some source => .ok source
  | none => .error "IndexError"

/-- Boolean test that `s` is a leading segment of `t` (character lists). -/
def isPre : List Char → List Char → Bool
  | [], _ => true
  | _ :: _, [] => false
  | a :: s, b :: t => a = b && isPre s t

/-- Boolean test that `s` occurs contiguously somewhere inside `t`. -/
def occursIn (s : List Char) : List Char → Bool
  | [] => isPre s []
  | t@(_ :: t') => isPre s t || occursIn s t'

/-- Python `str.rindex`: index of the rightmost occurrence of `s` in `t`, or
none (where Python raises `ValueError`) when `s` does not occur. -/
def rindex? (t s : List Char) : Option Nat :=
  match t with
  | [] => if isPre s [] then some 0 else none
  | _ :: t' =>
    match rindex? t' s with
    | some i => some (i + 1)
    | none => if isPre s t then some 0 else none

/-- momlib.py `get_base.strip_suffix(text, suffix)` (lines 564-574): find the
rightmost occurrence of `suffix`; if absent, or if any character after that
occurrence is neither a digit nor `.`, return `text` unchanged; otherwise cut
`text` at the occurrence. -/
def strip_suffix (text suffix : List Char) : List Char :=
  match rindex? text suffix with
  | none => text
  | some idx =>
    if (text.drop (idx + suffix.length)).all (fun c => c.isDigit || c = '.') then
      text.take idx
    else
      text

/-- The string transform of momlib.py `get_base` (lines 561-586) with the
default `slip=False`: strip a trailing `build` marker, then a trailing
`ubuntu` marker, then append `0` if the result ends in `-`. -/
def get_base_str (version : List Char) : List Char :=
  if (strip_suffix (strip_suffix version ("build".toList))
      ("ubuntu".toList)).getLast? = some '-' then
    strip_suffix (strip_suffix version ("build".toList)) ("ubuntu".toList) ++ ['0']
  else
    strip_suffix (strip_suffix version ("build".toList)) ("ubuntu".toList)

/-- Modelled from the spec: `deb.version.Version` is not among the mirrored
sources.  Per §3 a `PackageVersion` has an optional integer epoch (default 0),
an upstream portion and an optional revision portion, and "two versions are
equal only if all segments match exactly". -/
structure DebVersion where
  epoch : Nat
  upstream : List Char
  revision : Option (List Char)
  deriving DecidableEq, Repr

/-- Digit-string to natural number. -/
def natOfDigits (s : List Char) : Nat :=
  s.foldl (fun n c => n * 10 + (c.toNat - '0'.toNat)) 0

/-- Modelled from the spec: parsing a version string into its `DebVersion`
segments (§3): the epoch is the integer before the first `:` when present,
the revision is the part after the last `-` when present, the upstream
portion is the rest. -/
def parseDebVersion (v : List Char) : DebVersion :=
  let (epoch, rest) :=
    match v.findIdx? (· = ':') with
    | some i => (natOfDigits (v.take i), v.drop (i + 1))
    | none => (0, v)
  match rindex? rest ['-'] with
  | some i => ⟨epoch, rest.take i, some (rest.drop (i + 1))⟩
  | none => ⟨epoch, rest, none⟩

/-- momlib.py `get_base` (lines 561-586) with `slip=False`: the string
transform `get_base_str` followed by the `Version(...)` constructor. -/
def get_base (version : List Char) : DebVersion :=
  parseDebVersion (get_base_str version)

/-- Point update of a finite map modelling a file system (paths to values;
`none` means the path is absent). -/
def setFS {α : Type} (fs : String → Option α) (p : String) (v : Option α) :
    String → Option α :=
  fun q => if q = p then v else fs q

/-- Outcome of one `urllib.request.urlretrieve(url, filename)` call, as an
oracle per file name.  `urlretrieve` opens the destination with mode `wb` as
soon as the URL connection is up and streams the body into it, so a failure
is either `.fail none` (the connection itself failed, no file was created or
touched) or `.fail (some k)` (the transfer died after `k` bytes were already
written to the destination; the standard library deletes only its own
temporary files, never a caller-named destination). -/
inductive Fetch where
  | ok (size : Nat)
  | fail (written : Option Nat)
  deriving DecidableEq

/-- update-pool.py `update_pool(distro, source)` (lines 164-186) acting on the
`(size, name)` file list of the record and the pool directory (a map from
file names to byte sizes): each file is skipped when a local file of exactly
the declared size exists (`os.path.isfile` and `os.path.getsize(...) ==
int(size)`); otherwise `urlretrieve` is attempted.  A failure re-raises
(`RuntimeError`), aborting the record.  Returns the final directory state,
the list of files for which a download was attempted, and whether the record
completed without raising. -/
def update_pool (fetch : String → Fetch) :
    List (Nat × String) → (String → Option Nat) →
    (String → Option Nat) × List String × Bool
  | [], fs => (fs, [], true)
  | (size, name) :: rest, fs =>
    if fs name = some size then
      update_pool fetch rest fs
    else
      match fetch name with
      | .ok n =>
        let r := update_pool fetch rest (setFS fs name (some n))
        (r.1, name :: r.2.1, r.2.2)
      | .fail (some k) => (setFS fs name (some k), [name], false)
      | .fail none => (fs, [name], false)

/-- The four digest algorithm families used by check-pool.py `check_source`
(lines 70-74): `Checksums-Sha512`/`Checksums-Sha256`/`Checksums-Sha1`/`Files`. -/
inductive HashAlg where
  | sha512
  | sha256
  | sha1
  | md5
  deriving DecidableEq

/-- The inner loop of check-pool.py `check_source` for one checksum field:
hash each listed file (the oracle `digest` gives the hex digest of the
downloaded file with the given algorithm) and raise `Mismatch` on the first
entry whose digest differs from the expected hash. -/
def checkField (digest : HashAlg → String → String) (alg : HashAlg) :
    List FileEntry → Except String Unit
  | [] => .ok ()
  | e :: rest =>
    if digest alg e.name = e.hash then
      checkField digest alg rest
    else
      .error ("Mismatch " ++ e.name)

/-- One iteration of the field loop of `check_source`: absent fields are
skipped (`continue`), present ones are checked entry by entry. -/
def checkOptField (digest : HashAlg → String → String) (alg : HashAlg) :
    Option (List FileEntry) → Except String Unit
  | none => .ok ()
  | some l => checkField digest alg l

/-- check-pool.py `check_source(distro, source)` (lines 66-88), with the fresh
download abstracted into the `digest` oracle: iterate over the four checksum
fields in order and check every present one. -/
def check_source {V : Type} (digest : HashAlg → String → String)
    (source : SourceRecord V) : Except String Unit := do
  checkOptField digest .sha512 source.checksumsSha512
  checkOptField digest .sha256 source.checksumsSha256
  checkOptField digest .sha1 source.checksumsSha1
  checkOptField digest .md5 source.filesField

/-- Modelled from the spec: the integrity check as the specification words it
(§4.5), computing digests "using the *same* algorithm family the record
specifies (highest-strength field present wins, falling back through SHA-512
→ SHA-256 → SHA-1 → whole-file checksum)" — i.e. only the single strongest
present field is verified.  Kept for comparison with `check_source` above. -/
def check_source_spec {V : Type} (digest : HashAlg → String → String)
    (source : SourceRecord V) : Except String Unit :=
  match source.checksumsSha512 with
  | some l => checkField digest .sha512 l
  | none =>
    match source.checksumsSha256 with
    | some l => checkField digest .sha256 l
    | none =>
      match source.checksumsSha1 with
      | some l => checkField digest .sha1 l
      | none =>
        match source.filesField with
        | some l => checkField digest .md5 l
        | none => .ok ()

/-- The obsolete-pool-directory sweep of expire-pool.py `main` (lines
111-121): for each expiring distro, every package pool directory whose name
is neither in `our_sources` (the default distribution's declared packages)
nor in that distro's own `distro_sources` is removed entirely.  `poolDirs d`
lists the package directories under `pool/<d>/*/*`; the result lists the
`(distro, package)` directories removed. -/
def expire_obsolete_dirs (ourSources : List String)
    (declared : String → List String) (expire : String → Bool)
    (distros : List String) (poolDirs : String → List String) :
    List (String × String) :=
  distros.flatMap fun d =>
    if expire d then
      (poolDirs d).filterMap fun name =>
        if name ∈ ourSources ∨ name ∈ declared d then none else some (d, name)
    else
      []

/-- File contents for the `AtomicFile` model: a sequence of bytes. -/
abbrev Content := List Nat

/-- The file-system state after `i` chunks of the writer body have been
written through an `AtomicFile` handle for `target`: the sibling temporary
path `target ++ ".new"` holds the concatenation of the first `i` chunks
(opening with mode `wb` created/truncated it at `i = 0`); nothing else has
changed. -/
def atomicWriteState (fs : String → Option Content) (target : String)
    (chunks : List Content) (i : Nat) : String → Option Content :=
  setFS fs (target ++ ".new") (some ((chunks.take i).flatten))

/-- app/util/tree.py `AtomicFile` (lines 159-174) as the sequence of observable
file-system states of one `with AtomicFile(target) as f:` block whose body
writes `chunks` one by one.  `interrupt = some k` means the body raised after
`k` chunks (saturated at `chunks.length`): `__exit__` closes the descriptor
and, because an exception is in flight, does *not* rename, leaving the
temporary file in place.  `interrupt = none` means the body completed:
`__exit__` closes the descriptor and then renames `target ++ ".new"` over
`target`, which in the final state carries the full contents while the
temporary path is gone. -/
def atomicFileStates (fs : String → Option Content) (target : String)
    (chunks : List Content) (interrupt : Option Nat) :
    List (String → Option Content) :=
  match interrupt with
  | some k =>
    (List.range (min k chunks.length + 1)).map (atomicWriteState fs target chunks)
  | none =>
    (List.range (chunks.length + 1)).map (atomicWriteState fs target chunks) ++
      [setFS (setFS (atomicWriteState fs target chunks chunks.length)
        (target ++ ".new") none) target (some chunks.flatten)]

/-! ### Helper lemmas -/

theorem pairwise_rel_getLast {α : Type} {R : α → α → Prop} (hrefl : ∀ a, R a a) :
    ∀ (l : List α), l.Pairwise R → ∀ m, l.getLast? = some m → ∀ x ∈ l, R x m := by
  intro l
  induction l with
  | nil => intro _ m hm; cases hm
  | cons a t ih =>
    intro hp m hm x hx
    rcases List.pairwise_cons.mp hp with ⟨ha, ht⟩
    cases t with
    | nil =>
      simp only [List.getLast?_singleton, Option.some.injEq] at hm
      rcases List.mem_singleton.mp hx with rfl
      exact hm ▸ hrefl x
    | cons b t' =>
      have hm' : (b :: t').getLast? = some m := by
        simpa [List.getLast?] using hm
      rcases List.mem_cons.mp hx with rfl | hx'
      · exact ha m (List.mem_of_mem_getLast? hm')
      · exact ih ht m hm' x hx'

theorem version_sort_perm {V : Type} [LinearOrder V]
    (l : List (SourceRecord V)) : List.Perm (version_sort l) l :=
  List.mergeSort_perm l _

theorem version_sort_pairwise {V : Type} [LinearOrder V]
    (l : List (SourceRecord V)) :
    (version_sort l).Pairwise
      (fun a b : SourceRecord V => a.version ≤ b.version) := by
  have h : (version_sort l).Pairwise
      (fun a b : SourceRecord V =>
        decide (a.version ≤ b.version) = true) := by
    unfold version_sort
    apply List.sorted_mergeSort
    · intro a b c hab hbc
      simp only [decide_eq_true_eq] at *
      exact le_trans hab hbc
    · intro a b
      simp only [Bool.or_eq_true, decide_eq_true_eq]
      exact le_total a.version b.version
  exact h.imp (by simp)

theorem version_sort_le_getLast {V : Type} [LinearOrder V]
    (l : List (SourceRecord V)) (m : SourceRecord V)
    (hm : (version_sort l).getLast? = some m) :
    ∀ x ∈ l, x.version ≤ m.version := by
  intro x hx
  exact pairwise_rel_getLast
    (R := fun a b : SourceRecord V => a.version ≤ b.version)
    (fun a => le_refl a.version) _
    (version_sort_pairwise l) m hm x ((version_sort_perm l).symm.subset hx)

/-! ### C8: file-list field selection -/

/-- C8: `files(source)` selects the file list from the highest-priority
checksum field present, in the fixed order Checksums-Sha512, Checksums-Sha256,
Checksums-Sha1, Files, and raises an error if and only if none of the four
fields is present. -/
theorem files_selects_strongest_field {V : Type} (s : SourceRecord V) :
    ((∃ e, files s = .error e) ↔
      s.checksumsSha512 = none ∧ s.checksumsSha256 = none ∧
      s.checksumsSha1 = none ∧ s.filesField = none) ∧
    (∀ l, s.checksumsSha512 = some l →
      files s = .ok (l.map fun e => (e.size, e.name))) ∧
    (∀ l, s.checksumsSha512 = none → s.checksumsSha256 = some l →
      files s = .ok (l.map fun e => (e.size, e.name))) ∧
    (∀ l, s.checksumsSha512 = none → s.checksumsSha256 = none →
      s.checksumsSha1 = some l →
      files s = .ok (l.map fun e => (e.size, e.name))) ∧
    (∀ l, s.checksumsSha512 = none → s.checksumsSha256 = none →
      s.checksumsSha1 = none → s.filesField = some l →
      files s = .ok (l.map fun e => (e.size, e.name))) := by
  rcases s with ⟨p, v, d, o1, o2, o3, o4⟩
  cases o1 <;> cases o2 <;> cases o3 <;> cases o4 <;> simp [files]

/-- Witness for C8 at a concrete record: Sha512 absent, Sha256 present, so the
Sha256 entries are selected (and the weaker `Files` field is ignored). -/
theorem files_selects_strongest_field_witness :
    files (⟨"pkg", 1, "d", none, some [⟨"h", 3, "a"⟩], none,
        some [⟨"g", 4, "b"⟩]⟩ : SourceRecord Nat) = .ok [(3, "a")] :=
  (files_selects_strongest_field _).2.2.1 [⟨"h", 3, "a"⟩] rfl rfl

/-! ### C10: newest matching stanza -/

/-- C10: `get_source` returns a stanza with the maximal version among all
stanzas in the index whose `Package` field equals the given package name (the
last one after the stable sort), and raises `IndexError` exactly when no
stanza matches the package name. -/
theorem get_source_newest {V : Type} [LinearOrder V]
    (sources : List (SourceRecord V)) (package : String) :
    ((∃ e, get_source sources package = .error e) ↔
      ∀ s ∈ sources, s.package ≠ package) ∧
    (∀ r, get_source sources package = .ok r →
      r.package = package ∧ r ∈ sources ∧
      ∀ s ∈ sources, s.package = package → s.version ≤ r.version) := by
  constructor
  · unfold get_source
    rcases h : (version_sort (sources.filter fun s => s.package == package)).getLast?
      with _ | r
    · rw [List.getLast?_eq_none_iff] at h
      have hnil : sources.filter (fun s => s.package == package) = [] :=
        ((h ▸ version_sort_perm
          (sources.filter fun s => s.package == package)).symm).eq_nil
      rw [List.filter_eq_nil_iff] at hnil
      constructor
      · intro _ s hs
        simpa using hnil s hs
      · intro _
        exact ⟨"IndexError", rfl⟩
    · have hr : r ∈ sources.filter fun s => s.package == package :=
        (version_sort_perm _).subset (List.mem_of_mem_getLast? h)
      constructor
      · rintro ⟨e, he⟩; cases he
      · intro hnone
        exact absurd ((List.mem_filter.mp hr).2)
          (by simpa using hnone r (List.mem_filter.mp hr).1)
  · intro r hr
    unfold get_source at hr
    rcases h : (version_sort (sources.filter fun s => s.package == package)).getLast?
      with _ | r'
    · rw [h] at hr; cases hr
    · rw [h] at hr
      injection hr with hr'
      subst hr'
      have hmem : r' ∈ sources.filter fun s => s.package == package :=
        (version_sort_perm _).subset (List.mem_of_mem_getLast? h)
      refine ⟨by simpa using (List.mem_filter.mp hmem).2,
        (List.mem_filter.mp hmem).1, ?_⟩
      intro s hs hsp
      exact version_sort_le_getLast _ _ h s
        (List.mem_filter.mpr ⟨hs, by simpa using hsp⟩)

/-- Witness for C10 at a concrete index: among the two stanzas for `"a"`, the
one with version 7 is returned and it dominates both matches. -/
theorem get_source_newest_witness :
    (⟨"a", 7, "d2", none, none, none, none⟩ : SourceRecord Nat) ∈
      ([⟨"a", 3, "d1", none, none, none, none⟩,
        ⟨"b", 9, "d3", none, none, none, none⟩,
        ⟨"a", 7, "d2", none, none, none, none⟩] : List (SourceRecord Nat)) ∧
    ∀ s ∈ ([⟨"a", 3, "d1", none, none, none, none⟩,
        ⟨"b", 9, "d3", none, none, none, none⟩,
        ⟨"a", 7, "d2", none, none, none, none⟩] : List (SourceRecord Nat)),
      s.package = "a" → s.version ≤ 7 := by
  have h := (get_source_newest
    ([⟨"a", 3, "d1", none, none, none, none⟩,
      ⟨"b", 9, "d3", none, none, none, none⟩,
      ⟨"a", 7, "d2", none, none, none, none⟩] : List (SourceRecord Nat)) "a").2
    ⟨"a", 7, "d2", none, none, none, none⟩
    (by simp [get_source, version_sort, List.mergeSort, List.splitInTwo,
      List.merge, List.splitAt, List.splitAt.go])
  exact ⟨h.2.1, h.2.2⟩

/-! ### C2: promotion of the newest source below the base -/

/-- C2: when no pool source carries the base version but at least one is
strictly below it, `expire_pool_sources` promotes exactly one member of the
below-base set — one with the greatest version — into the kept list, and
passes all the others to removal: the kept list is the not-below list plus
that single promoted source `m`, and the removal list plus `m` is a
permutation of the below-base set. -/
theorem expire_pool_retains_greatest_ancestor {V : Type} [LinearOrder V]
    (sources : List (SourceRecord V)) (base : V)
    (h1 : ∀ s ∈ sources, s.version ≠ base)
    (h2 : ∃ s ∈ sources, s.version < base) :
    ∃ m,
      (expire_pool_partition sources base).1 =
        (sources.filter fun s => !decide (base > s.version)) ++ [m] ∧
      m ∈ sources.filter (fun s => decide (base > s.version)) ∧
      (∀ s ∈ sources.filter (fun s => decide (base > s.version)),
        s.version ≤ m.version) ∧
      List.Perm ((expire_pool_partition sources base).2 ++ [m])
        (sources.filter fun s => decide (base > s.version)) := by
  have hfound : (sources.any fun s => decide (base = s.version)) = false := by
    rw [List.any_eq_false]
    intro s hs heq
    exact h1 s hs (by simpa using heq : base = s.version).symm
  obtain ⟨s0, hs0, hlt0⟩ := h2
  have hmem0 : s0 ∈ sources.filter fun s => decide (base > s.version) :=
    List.mem_filter.mpr ⟨hs0, decide_eq_true hlt0⟩
  have hbne : (sources.filter fun s => decide (base > s.version)) ≠ [] := by
    intro hnil
    rw [hnil] at hmem0
    cases hmem0
  have hsne :
      version_sort (sources.filter fun s => decide (base > s.version)) ≠ [] := by
    intro hnil
    exact hbne ((hnil ▸ version_sort_perm
      (sources.filter fun s => decide (base > s.version))).symm.eq_nil)
  have hempty :
      (sources.filter fun s => decide (base > s.version)).isEmpty = false := by
    rcases hc : sources.filter fun s => decide (base > s.version) with _ | ⟨a, t⟩
    · exact absurd hc hbne
    · rw [hc]
      rfl
  rcases hgl : (version_sort
      (sources.filter fun s => decide (base > s.version))).getLast? with _ | m
  · exact absurd (List.getLast?_eq_none_iff.mp hgl) hsne
  have hm : (version_sort
      (sources.filter fun s => decide (base > s.version))).getLast hsne = m := by
    rw [List.getLast?_eq_getLast _ hsne] at hgl
    injection hgl
  have hsplit : (version_sort
        (sources.filter fun s => decide (base > s.version))).dropLast ++ [m] =
      version_sort (sources.filter fun s => decide (base > s.version)) := by
    rw [← hm]
    exact List.dropLast_append_getLast hsne
  refine ⟨m, ?_, ?_, ?_, ?_⟩
  · simp [expire_pool_partition, hfound, hempty, hgl]
  · exact (version_sort_perm _).subset (List.mem_of_mem_getLast? hgl)
  · exact version_sort_le_getLast _ m hgl
  · simp only [expire_pool_partition, hfound, hempty]
    rw [if_neg (by simp)]
    rw [hsplit]
    exact version_sort_perm (sources.filter fun s => decide (base > s.version))

/-- Witness for C2: pool versions 3, 7, 5 with base 6 — no version equals the
base, versions 3 and 5 are below it, and 5 is promoted. -/
theorem expire_pool_retains_greatest_ancestor_witness :
    ∃ m : SourceRecord Nat,
      (expire_pool_partition
        ([⟨"p", 3, "d", none, none, none, none⟩,
          ⟨"p", 7, "d", none, none, none, none⟩,
          ⟨"p", 5, "d", none, none, none, none⟩] : List (SourceRecord Nat))
        6).1 =
        (([⟨"p", 3, "d", none, none, none, none⟩,
          ⟨"p", 7, "d", none, none, none, none⟩,
          ⟨"p", 5, "d", none, none, none, none⟩] :
            List (SourceRecord Nat)).filter
              fun s => !decide ((6 : Nat) > s.version)) ++ [m] ∧
      m ∈ ([⟨"p", 3, "d", none, none, none, none⟩,
          ⟨"p", 7, "d", none, none, none, none⟩,
          ⟨"p", 5, "d", none, none, none, none⟩] :
            List (SourceRecord Nat)).filter
              (fun s => decide ((6 : Nat) > s.version)) ∧
      (∀ s ∈ ([⟨"p", 3, "d", none, none, none, none⟩,
          ⟨"p", 7, "d", none, none, none, none⟩,
          ⟨"p", 5, "d", none, none, none, none⟩] :
            List (SourceRecord Nat)).filter
              (fun s => decide ((6 : Nat) > s.version)),
        s.version ≤ m.version) ∧
      List.Perm ((expire_pool_partition
        ([⟨"p", 3, "d", none, none, none, none⟩,
          ⟨"p", 7, "d", none, none, none, none⟩,
          ⟨"p", 5, "d", none, none, none, none⟩] : List (SourceRecord Nat))
        6).2 ++ [m])
        (([⟨"p", 3, "d", none, none, none, none⟩,
          ⟨"p", 7, "d", none, none, none, none⟩,
          ⟨"p", 5, "d", none, none, none, none⟩] :
            List (SourceRecord Nat)).filter
              fun s => decide ((6 : Nat) > s.version)) :=
  expire_pool_retains_greatest_ancestor _ 6 (by decide)
    ⟨(⟨"p", 3, "d", none, none, none, none⟩ : SourceRecord Nat), by decide⟩

/-! ### C1: expiry never deletes a kept file -/

theorem mem_foldl_remove {keepFiles : List String}
    (fl : List (Nat × String)) (present : List String) (n : String)
    (hn : n ∈ keepFiles) (hp : n ∈ present) :
    n ∈ fl.foldl
      (fun st e => if e.2 ∈ keepFiles then st else st.filter (· ≠ e.2))
      present := by
  induction fl generalizing present with
  | nil => exact hp
  | cons e rest ih =>
    simp only [List.foldl_cons]
    apply ih
    by_cases he : e.2 ∈ keepFiles
    · simpa [he] using hp
    · rw [if_neg he]
      refine List.mem_filter.mpr ⟨hp, ?_⟩
      simp only [decide_eq_true_eq]
      exact fun hc => he (hc ▸ hn)

theorem mem_expire_remove_loop {V : Type} {keepFiles : List String}
    (remove : List (SourceRecord V)) (present : List String) (n : String)
    (hn : n ∈ keepFiles) (hp : n ∈ present) :
    n ∈ (expire_remove_loop keepFiles remove present).1 := by
  induction remove generalizing present with
  | nil => exact hp
  | cons source rest ih =>
    simp only [expire_remove_loop]
    rcases files source with _ | fl
    · exact hp
    · exact ih _ (mem_foldl_remove fl present n hn hp)

/-- C1: `expire_sources` never removes a file whose name occurs in the file
list of any kept source: every such name present in the pool directory before
the call is still present after it (even when the same name also occurs in a
source being removed). -/
theorem expire_sources_keeps_kept_files {V : Type}
    (keep_sources remove_sources : List (SourceRecord V))
    (present : List String) :
    ∀ n ∈ keep_files keep_sources, n ∈ present →
      n ∈ (expire_sources keep_sources remove_sources present).1 := by
  intro n hn hp
  unfold expire_sources
  rcases keep_sources.mapM files with _ | ls
  · exact hp
  · exact mem_expire_remove_loop remove_sources present n hn hp

/-- Witness for C1: the tarball `shared.tar` is referenced both by the kept
source and by the removed source; it survives the expiry while the removed
source's other file is deleted. -/
theorem expire_sources_keeps_kept_files_witness :
    "shared.tar" ∈ (expire_sources
      ([⟨"p", 2, "d", none, none, none,
          some [⟨"h1", 10, "shared.tar"⟩, ⟨"h2", 5, "p_2.dsc"⟩]⟩] :
        List (SourceRecord Nat))
      ([⟨"p", 1, "d", none, none, none,
          some [⟨"h1", 10, "shared.tar"⟩, ⟨"h3", 4, "p_1.dsc"⟩]⟩] :
        List (SourceRecord Nat))
      ["shared.tar", "p_2.dsc", "p_1.dsc"]).1 :=
  expire_sources_keeps_kept_files _ _ _ "shared.tar" (by decide) (by decide)

/-! ### C4: (non-)idempotence of the retention base -/

theorem isPre_concat_elim {c : Char} :
    ∀ (s t : List Char), s ≠ [] → s.getLast? ≠ some c →
      isPre s (t ++ [c]) = true → isPre s t = true := by
  intro s
  induction s with
  | nil =>
    intro t hne _ _
    exact absurd rfl hne
  | cons a s' ih =>
    intro t _ hlast hpre
    cases t with
    | nil =>
      cases s' with
      | nil =>
        exfalso
        apply hlast
        simp only [List.nil_append, isPre, Bool.and_eq_true,
          decide_eq_true_eq] at hpre
        simp [hpre.1]
      | cons b s'' =>
        simp only [List.nil_append, isPre, Bool.and_eq_true] at hpre
        exact absurd hpre.2 (by simp [isPre])
    | cons x t' =>
      cases s' with
      | nil =>
        simp only [List.cons_append, isPre, Bool.and_eq_true] at hpre ⊢
        exact ⟨hpre.1, trivial⟩
      | cons b s'' =>
        simp only [List.cons_append, isPre, Bool.and_eq_true] at hpre ⊢
        refine ⟨hpre.1, ih t' (by simp) ?_ hpre.2⟩
        simpa [List.getLast?_cons_cons] using hlast

theorem occursIn_concat {c : Char} (s : List Char) (hne : s ≠ [])
    (hlast : s.getLast? ≠ some c) :
    ∀ t, occursIn s t = false → occursIn s (t ++ [c]) = false := by
  intro t
  induction t with
  | nil =>
    intro h0
    simp only [occursIn] at h0
    simp only [List.nil_append, occursIn, Bool.or_eq_false_iff]
    refine ⟨?_, h0⟩
    rcases hp : isPre s [c] with _ | _
    · rfl
    · exact absurd (isPre_concat_elim s [] hne hlast (by simpa using hp)) (by simp [h0])
  | cons x t' ih =>
    intro h0
    simp only [occursIn, Bool.or_eq_false_iff] at h0
    simp only [List.cons_append, occursIn, Bool.or_eq_false_iff]
    refine ⟨?_, ih h0.2⟩
    rcases hp : isPre s (x :: (t' ++ [c])) with _ | _
    · rfl
    · exact absurd (isPre_concat_elim s (x :: t') hne hlast (by simpa using hp))
        (by simp [h0.1])

theorem rindex?_eq_none {s : List Char} :
    ∀ t, occursIn s t = false → rindex? t s = none := by
  intro t
  induction t with
  | nil =>
    intro h0
    simp only [occursIn] at h0
    simp [rindex?, h0]
  | cons x t' ih =>
    intro h0
    simp only [occursIn, Bool.or_eq_false_iff] at h0
    simp [rindex?, ih h0.2, h0.1]

theorem strip_suffix_of_no_occurrence {t s : List Char}
    (h : occursIn s t = false) : strip_suffix t s = t := by
  unfold strip_suffix
  rw [rindex?_eq_none t h]

/-- C4 (counterexample): the retention-base transform is not idempotent: on
`1ubuntu2ubuntu3` one application strips only the last `ubuntu3` (yielding
`1ubuntu2`), and a second application strips again, yielding the version `1`. -/
theorem get_base_not_idempotent :
    get_base (get_base_str ("1ubuntu2ubuntu3".toList)) ≠
      get_base ("1ubuntu2ubuntu3".toList) := by
  decide

/-- C4 (amended): `get_base` is idempotent on every version string that
contains neither a `build` nor an `ubuntu` marker (so in particular on
already-stripped versions produced from such strings); in general a second
application can strip further, as the counterexample shows. -/
theorem get_base_idempotent_of_no_marker (v : List Char)
    (hb : occursIn ("build".toList) v = false)
    (hu : occursIn ("ubuntu".toList) v = false) :
    get_base_str (get_base_str v) = get_base_str v ∧
    get_base (get_base_str v) = get_base v := by
  have h1 : strip_suffix v ("build".toList) = v :=
    strip_suffix_of_no_occurrence hb
  have hstep : get_base_str v =
      if v.getLast? = some '-' then v ++ ['0'] else v := by
    unfold get_base_str
    rw [h1, strip_suffix_of_no_occurrence hu]
  have hgoal : get_base_str (get_base_str v) = get_base_str v := by
    rcases hdash : v.getLast? with _ | c
    · rw [hstep, if_neg (by simp [hdash])]
      rw [hstep, if_neg (by simp [hdash])]
    · by_cases hc : c = '-'
      · subst hc
        have hv0 : get_base_str v = v ++ ['0'] := by
          rw [hstep, if_pos hdash]
        have hb0 : occursIn ("build".toList) (v ++ ['0']) = false :=
          occursIn_concat _ (by decide) (by decide) v hb
        have hu0 : occursIn ("ubuntu".toList) (v ++ ['0']) = false :=
          occursIn_concat _ (by decide) (by decide) v hu
        rw [hv0]
        unfold get_base_str
        rw [strip_suffix_of_no_occurrence hb0,
          strip_suffix_of_no_occurrence hu0]
        rw [if_neg (by simp [List.getLast?_concat])]
      · rw [hstep, if_neg (by simp [hdash, hc])]
        rw [hstep, if_neg (by simp [hdash, hc])]
  exact ⟨hgoal, congrArg parseDebVersion hgoal⟩

/-- Witness for the amended C4 at `1.2-` (no markers; the transform appends
the zero revision and a second application changes nothing). -/
theorem get_base_idempotent_of_no_marker_witness :
    get_base_str (get_base_str ("1.2-".toList)) = get_base_str ("1.2-".toList) ∧
    get_base (get_base_str ("1.2-".toList)) = get_base ("1.2-".toList) :=
  get_base_idempotent_of_no_marker ("1.2-".toList) (by decide) (by decide)

/-! ### C5: fetch idempotence -/

theorem update_pool_preserves {fetch : String → Fetch} {size : Nat}
    {name : String} (hfetch : fetch name = .ok size) :
    ∀ (fl : List (Nat × String)) (fs : String → Option Nat),
      (∀ p ∈ fl, fetch p.2 = .ok p.1) → fs name = some size →
      (update_pool fetch fl fs).1 name = some size := by
  intro fl
  induction fl with
  | nil =>
    intro fs _ hname
    exact hname
  | cons q rest ih =>
    rcases q with ⟨s', n'⟩
    intro fs hcons hname
    simp only [update_pool]
    by_cases hskip : fs n' = some s'
    · rw [if_pos hskip]
      exact ih fs (fun p hp => hcons p (List.mem_cons_of_mem _ hp)) hname
    · rw [if_neg hskip, hcons (s', n') (List.mem_cons_self _ _)]
      apply ih _ (fun p hp => hcons p (List.mem_cons_of_mem _ hp))
      by_cases he : name = n'
      · subst he
        have := hcons (s', name) (List.mem_cons_self _ _)
        rw [hfetch] at this
        injection this with hs
        simp [setFS, hs]
      · simpa [setFS, he] using hname

theorem update_pool_completes {fetch : String → Fetch} :
    ∀ (fl : List (Nat × String)) (fs : String → Option Nat),
      (∀ p ∈ fl, fetch p.2 = .ok p.1) →
      ∀ p ∈ fl, (update_pool fetch fl fs).1 p.2 = some p.1 := by
  intro fl
  induction fl with
  | nil =>
    intro fs _ p hp
    cases hp
  | cons q rest ih =>
    rcases q with ⟨s', n'⟩
    intro fs hcons p hp
    have hrest : ∀ p ∈ rest, fetch p.2 = .ok p.1 :=
      fun p hp => hcons p (List.mem_cons_of_mem _ hp)
    rcases List.mem_cons.mp hp with rfl | hp'
    · simp only [update_pool]
      by_cases hskip : fs n' = some s'
      · rw [if_pos hskip]
        exact update_pool_preserves (hcons (s', n') (List.mem_cons_self _ _))
          rest fs hrest hskip
      · rw [if_neg hskip, hcons (s', n') (List.mem_cons_self _ _)]
        exact update_pool_preserves (hcons (s', n') (List.mem_cons_self _ _))
          rest _ hrest (by simp [setFS])
    · simp only [update_pool]
      by_cases hskip : fs n' = some s'
      · rw [if_pos hskip]
        exact ih fs hrest p hp'
      · rw [if_neg hskip, hcons (s', n') (List.mem_cons_self _ _)]
        exact ih _ hrest p hp'

theorem update_pool_all_skip {fetch : String → Fetch} :
    ∀ (fl : List (Nat × String)) (fs : String → Option Nat),
      (∀ p ∈ fl, fs p.2 = some p.1) →
      update_pool fetch fl fs = (fs, [], true) := by
  intro fl
  induction fl with
  | nil =>
    intro fs _
    rfl
  | cons q rest ih =>
    rcases q with ⟨s', n'⟩
    intro fs h
    simp only [update_pool]
    rw [if_pos (h (s', n') (List.mem_cons_self _ _))]
    exact ih fs fun p hp => h p (List.mem_cons_of_mem _ hp)

/-- C5 (counterexample): with no network change at all, a second `update_pool`
run can still download: the mirror serves a 3-byte file where the record
declares 5 bytes, so the size-based skip check fails again on the second run
and the file is downloaded once per run, not zero times the second time. -/
theorem update_pool_second_run_downloads :
    (update_pool (fun _ => Fetch.ok 3) [(5, "f")]
      ((update_pool (fun _ => Fetch.ok 3) [(5, "f")] (fun _ => none)).1)).2.1 =
      ["f"] := by
  rfl

/-- C5 (amended): a file is skipped exactly when a local file of the declared
size exists (first conjunct: skip keeps state and downloads nothing; a size
mismatch forces a download attempt), and — provided every fetched file
actually has its declared size (a mirror consistent with its index) — a
second run over the same record performs zero download attempts and leaves
the pool unchanged. -/
theorem update_pool_idempotent (fetch : String → Fetch)
    (fl : List (Nat × String)) (fs : String → Option Nat)
    (hcons : ∀ p ∈ fl, fetch p.2 = .ok p.1) :
    (∀ (size : Nat) (name : String) (rest : List (Nat × String))
        (fs' : String → Option Nat),
      (fs' name = some size →
        update_pool fetch ((size, name) :: rest) fs' =
          update_pool fetch rest fs') ∧
      (fs' name ≠ some size →
        name ∈ (update_pool fetch ((size, name) :: rest) fs').2.1)) ∧
    update_pool fetch fl ((update_pool fetch fl fs).1) =
      ((update_pool fetch fl fs).1, [], true) := by
  constructor
  · intro size name rest fs'
    constructor
    · intro hskip
      simp only [update_pool]
      rw [if_pos hskip]
    · intro hskip
      simp only [update_pool]
      rw [if_neg hskip]
      rcases fetch name with n | w
      · exact (List.mem_cons_self _ _)
      · rcases w with _ | k
        · exact List.mem_singleton.mpr rfl
        · exact List.mem_singleton.mpr rfl
  · exact update_pool_all_skip fl _
      (fun p hp => update_pool_completes fl fs hcons p hp)

/-- Witness for the amended C5: after a consistent first run that downloads
both files, the second run is the identity with zero download attempts. -/
theorem update_pool_idempotent_witness :
    update_pool (fun n => if n = "a" then Fetch.ok 2 else Fetch.ok 7)
        [(2, "a"), (7, "b")]
        ((update_pool (fun n => if n = "a" then Fetch.ok 2 else Fetch.ok 7)
          [(2, "a"), (7, "b")] (fun _ => none)).1) =
      ((update_pool (fun n => if n = "a" then Fetch.ok 2 else Fetch.ok 7)
        [(2, "a"), (7, "b")] (fun _ => none)).1, [], true) :=
  (update_pool_idempotent _ [(2, "a"), (7, "b")] (fun _ => none)
    (by decide)).2

/-! ### C3: partial files on download failure -/

/-- C3 (counterexample): a failing download *does* leave a partial file at the
final pool path: starting from an empty directory, a transfer that dies after
2 of the declared 5 bytes leaves a 2-byte file at the final name while the
record aborts — `urlretrieve` writes to the final name during the transfer,
not after it. -/
theorem update_pool_leaves_partial_file :
    (update_pool (fun _ => Fetch.fail (some 2)) [(5, "f")] (fun _ => none)).1
        "f" = some 2 ∧
    (update_pool (fun _ => Fetch.fail (some 2)) [(5, "f")] (fun _ => none)).2.2 =
      false ∧
    (fun _ => (none : Option Nat)) "f" = none := by
  exact ⟨by simp [update_pool, setFS], rfl, rfl⟩

/-- C3 (amended): a failed download aborts the record and can leave a partial
file at the final path; but whenever the partial size differs from the
declared size, the next run's size-based skip check rejects it and the file
is downloaded again (the skip check is only fooled if the partial file
happens to have exactly the declared size). -/
theorem update_pool_partial_file_retried (fetch : String → Fetch)
    (fs : String → Option Nat) (size k : Nat) (name : String)
    (hskip : fs name ≠ some size) (hfail : fetch name = .fail (some k)) :
    (update_pool fetch [(size, name)] fs).2.2 = false ∧
    (update_pool fetch [(size, name)] fs).1 name = some k ∧
    (k ≠ size → ∀ fetch', name ∈
      (update_pool fetch' [(size, name)]
        ((update_pool fetch [(size, name)] fs).1)).2.1) := by
  have hrun : update_pool fetch [(size, name)] fs =
      (setFS fs name (some k), [name], false) := by
    simp only [update_pool]
    rw [if_neg hskip, hfail]
  rw [hrun]
  refine ⟨rfl, by simp [setFS], ?_⟩
  intro hk fetch'
  simp only [update_pool]
  rw [if_neg (by simp [setFS, hk])]
  rcases fetch' name with n | w
  · exact (List.mem_cons_self _ _)
  · rcases w with _ | k'
    · exact List.mem_singleton.mpr rfl
    · exact List.mem_singleton.mpr rfl

/-- Witness for the amended C3: the 2-of-5-byte orphan from a failed first
run is re-attempted by a (now succeeding) second run. -/
theorem update_pool_partial_file_retried_witness :
    (update_pool (fun _ => Fetch.fail (some 2)) [(5, "f")]
      (fun _ => none)).2.2 = false ∧
    (update_pool (fun _ => Fetch.fail (some 2)) [(5, "f")]
      (fun _ => none)).1 "f" = some 2 ∧
    "f" ∈ (update_pool (fun _ => Fetch.ok 5) [(5, "f")]
      ((update_pool (fun _ => Fetch.fail (some 2)) [(5, "f")]
        (fun _ => none)).1)).2.1 :=
  let h := update_pool_partial_file_retried (fun _ => Fetch.fail (some 2))
    (fun _ => none) 5 2 "f" (by simp) rfl
  ⟨h.1, h.2.1, h.2.2 (by decide) (fun _ => Fetch.ok 5)⟩

/-! ### C6: whole-directory removal -/

/-- C6 (counterexample): a package pool directory under one distro's pool is
removed even though the package is still declared in another tracked
archive's package list: `p` is declared in `debian` (a tracked, expiring
distro) but its directory under `pool/ubuntu` is removed because the check
consults only `our_sources` and the *same* distro's declared list. -/
theorem expire_obsolete_dirs_removes_declared_elsewhere :
    ("ubuntu", "p") ∈ expire_obsolete_dirs []
        (fun d => if d = "debian" then ["p"] else []) (fun _ => true)
        ["ubuntu", "debian"] (fun _ => ["p"]) ∧
    "p" ∈ (fun d => if d = "debian" then ["p"] else []) "debian" ∧
    "debian" ∈ ["ubuntu", "debian"] ∧
    (fun _ => true) "debian" = true := by
  decide

/-- C6 (amended): during the sweep, the pool directory of package `name`
under distro `d` is removed if and only if `d` is a tracked expiring distro,
the directory exists, and `name` is declared neither in the default
distribution's package list (`our_sources`) nor in `d`'s *own* declared
package list — a declaration in a *different* tracked archive does not
protect the directory. -/
theorem expire_obsolete_dirs_mem (ourSources : List String)
    (declared : String → List String) (expire : String → Bool)
    (distros : List String) (poolDirs : String → List String)
    (d name : String) :
    (d, name) ∈ expire_obsolete_dirs ourSources declared expire distros poolDirs ↔
      d ∈ distros ∧ expire d = true ∧ name ∈ poolDirs d ∧
        name ∉ ourSources ∧ name ∉ declared d := by
  unfold expire_obsolete_dirs
  simp only [List.mem_flatMap]
  constructor
  · rintro ⟨d', hd', hmem⟩
    by_cases he : expire d' = true
    · rw [if_pos he] at hmem
      rcases List.mem_filterMap.mp hmem with ⟨n', hn', heq⟩
      by_cases hc : n' ∈ ourSources ∨ n' ∈ declared d'
      · rw [if_pos hc] at heq
        cases heq
      · rw [if_neg hc] at heq
        injection heq with heq'
        rcases Prod.mk.injEq .. ▸ heq' with ⟨rfl, rfl⟩
        push_neg at hc
        exact ⟨hd', he, hn', hc.1, hc.2⟩
    · rw [if_neg he] at hmem
      cases hmem
  · rintro ⟨hd, he, hp, ho, hdec⟩
    refine ⟨d, hd, ?_⟩
    rw [if_pos he]
    refine List.mem_filterMap.mpr ⟨name, hp, ?_⟩
    rw [if_neg (by tauto)]

/-- Witness for the amended C6: a package declared nowhere has its directory
removed from the distro that still holds one. -/
theorem expire_obsolete_dirs_mem_witness :
    ("debian", "q") ∈ expire_obsolete_dirs ["a"] (fun _ => ["b"])
      (fun _ => true) ["debian"] (fun _ => ["q"]) :=
  (expire_obsolete_dirs_mem ["a"] (fun _ => ["b"]) (fun _ => true)
    ["debian"] (fun _ => ["q"]) "debian" "q").mpr (by decide)

/-! ### C9: which checksum fields are verified -/

theorem checkField_ok_iff (digest : HashAlg → String → String) (alg : HashAlg)
    (l : List FileEntry) :
    checkField digest alg l = .ok () ↔ ∀ e ∈ l, digest alg e.name = e.hash := by
  induction l with
  | nil => simp [checkField]
  | cons e rest ih =>
    by_cases h : digest alg e.name = e.hash
    · simp only [checkField, if_pos h, ih]
      simp [h]
    · simp only [checkField, if_neg h]
      simp [h]

theorem checkOptField_ok_iff (digest : HashAlg → String → String)
    (alg : HashAlg) (o : Option (List FileEntry)) :
    checkOptField digest alg o = .ok () ↔
      ∀ l, o = some l → ∀ e ∈ l, digest alg e.name = e.hash := by
  cases o with
  | none => simp [checkOptField]
  | some l => simp [checkOptField, checkField_ok_iff]

theorem except_bind_unit_ok_iff (x : Except String Unit)
    (f : Unit → Except String Unit) :
    (x >>= f) = .ok () ↔ x = .ok () ∧ f () = .ok () := by
  cases x with
  | error e => simp [Bind.bind, Except.bind]
  | ok u =>
    cases u
    simp [Bind.bind, Except.bind]

/-- C9 (counterexample): `check_source` does not restrict itself to the
highest-strength checksum field: on a record whose Sha512 digests all match
but whose `Files` (MD5) entry does not, the specified behaviour (strongest
field only, `check_source_spec`) accepts, while the code checks the `Files`
field too and raises a mismatch. -/
theorem check_source_checks_all_fields :
    check_source_spec (fun a _ => if a = HashAlg.sha512 then "good" else "x")
        (⟨"p", 1, "d", some [⟨"good", 1, "f"⟩], none, none,
          some [⟨"BAD", 1, "f"⟩]⟩ : SourceRecord Nat) = .ok () ∧
    check_source (fun a _ => if a = HashAlg.sha512 then "good" else "x")
        (⟨"p", 1, "d", some [⟨"good", 1, "f"⟩], none, none,
          some [⟨"BAD", 1, "f"⟩]⟩ : SourceRecord Nat) =
      .error "Mismatch f" :=
  ⟨rfl, rfl⟩

/-- C9 (amended): `check_source` verifies *every* checksum field present in
the record — Sha512, Sha256, Sha1 and the MD5 `Files` field alike — and
succeeds exactly when every entry of every present field has the expected
digest; a mismatch in any present field raises. -/
theorem check_source_ok_iff {V : Type} (digest : HashAlg → String → String)
    (s : SourceRecord V) :
    check_source digest s = .ok () ↔
      (∀ l, s.checksumsSha512 = some l →
        ∀ e ∈ l, digest .sha512 e.name = e.hash) ∧
      (∀ l, s.checksumsSha256 = some l →
        ∀ e ∈ l, digest .sha256 e.name = e.hash) ∧
      (∀ l, s.checksumsSha1 = some l →
        ∀ e ∈ l, digest .sha1 e.name = e.hash) ∧
      (∀ l, s.filesField = some l →
        ∀ e ∈ l, digest .md5 e.name = e.hash) := by
  unfold check_source
  rw [except_bind_unit_ok_iff, except_bind_unit_ok_iff, except_bind_unit_ok_iff,
    checkOptField_ok_iff, checkOptField_ok_iff, checkOptField_ok_iff,
    checkOptField_ok_iff]

/-- Witness for the amended C9: a record carrying both a Sha512 field and a
`Files` field, all of whose digests match, passes `check_source`. -/
theorem check_source_ok_iff_witness :
    check_source (fun _ _ => "h")
        (⟨"p", 1, "d", some [⟨"h", 1, "f"⟩], none, none,
          some [⟨"h", 1, "g"⟩]⟩ : SourceRecord Nat) = .ok () := by
  refine (check_source_ok_iff (fun _ _ => "h") _).mpr ⟨?_, ?_, ?_, ?_⟩
  · intro l hl
    injection hl with hl'
    subst hl'
    decide
  · intro l hl
    cases hl
  · intro l hl
    cases hl
  · intro l hl
    injection hl with hl'
    subst hl'
    decide

/-! ### C7: atomic file replacement -/

theorem newName_ne (t : String) : ¬ (t = t ++ ".new") := by
  intro h
  have hlen := congrArg String.length h
  rw [String.length_append] at hlen
  have h4 : ".new".length = 4 := rfl
  omega

/-- C7: the `AtomicFile` write protocol is atomic: in every observable state
but the final one the target path still holds its previous content (all
writing goes to the sibling `<target>.new`); when the writer body raises, the
final state still has the old target content and leaves the temporary file in
place with the bytes written so far; when the body completes, the final state
has the full new content at the target and the temporary path is gone. -/
theorem atomicFile_atomic (fs : String → Option Content) (target : String)
    (chunks : List Content) (interrupt : Option Nat) :
    (∀ s ∈ (atomicFileStates fs target chunks interrupt).dropLast,
      s target = fs target) ∧
    (∀ k, interrupt = some k →
      ∃ s, (atomicFileStates fs target chunks interrupt).getLast? = some s ∧
        s target = fs target ∧
        s (target ++ ".new") =
          some ((chunks.take (min k chunks.length)).flatten)) ∧
    (interrupt = none →
      ∃ s, (atomicFileStates fs target chunks interrupt).getLast? = some s ∧
        s target = some chunks.flatten ∧ s (target ++ ".new") = none) := by
  have hwrite : ∀ i, atomicWriteState fs target chunks i target = fs target := by
    intro i
    simp only [atomicWriteState, setFS]
    rw [if_neg (newName_ne target)]
  refine ⟨?_, ?_, ?_⟩
  · intro s hs
    rcases interrupt with _ | k
    · rw [atomicFileStates, List.dropLast_concat] at hs
      rcases List.mem_map.mp hs with ⟨i, _, rfl⟩
      exact hwrite i
    · have hs' := List.dropLast_subset _ hs
      rw [atomicFileStates] at hs'
      rcases List.mem_map.mp hs' with ⟨i, _, rfl⟩
      exact hwrite i
  · rintro k rfl
    refine ⟨atomicWriteState fs target chunks (min k chunks.length),
      ?_, hwrite _, ?_⟩
    · rw [atomicFileStates, List.range_succ, List.map_append, List.map_cons,
        List.map_nil, List.getLast?_concat]
    · simp [atomicWriteState, setFS]
  · rintro rfl
    refine ⟨setFS (setFS (atomicWriteState fs target chunks chunks.length)
      (target ++ ".new") none) target (some chunks.flatten), ?_, ?_, ?_⟩
    · rw [atomicFileStates, List.getLast?_concat]
    · simp [setFS]
    · have hne : ¬ (target ++ ".new" = target) := fun h => newName_ne target h.symm
      simp [setFS, hne]

/-- Witness for C7 with two chunks and an interruption after the first: the
target is untouched, the temporary file holds the first chunk. -/
theorem atomicFile_atomic_witness :
    ∃ s, (atomicFileStates (fun _ => none) "t" [[1], [2]]
        (some 1)).getLast? = some s ∧
      s "t" = (fun _ => (none : Option Content)) "t" ∧
      s ("t" ++ ".new") = some (([[1], [2]].take (min 1 [[1], [2]].length)).flatten) :=
  (atomicFile_atomic (fun _ => none) "t" [[1], [2]] (some 1)).2.1 1 rfl

end Mom
